import Mathlib

/-
Verification of the Nine Men's Morris engine (ninemensmorris.py).

The development is a shallow embedding of the source program:

* `Pos` enumerates the 24 legal board coordinates (the keys of the
  `board.spaces` dictionary, in insertion order `allPos`), with
  `Pos.col`/`Pos.row` the two components of the Python coordinate tuple
  and `adjacents` the adjacency lists built in `space.__init__`.
* A Python `board` object becomes the `Board` structure.  The `spaces`
  dictionary is represented by the `content` field (the per-space
  `content` character; the adjacency part of a `space` is static data
  shared by every board and so lives in the global `adjacents`).
* A Python `action` object becomes the `Action` structure.  The class
  defines no `__eq__`, so `==` between two action objects is object
  identity; histories therefore store `PyAct` values, an `Action`
  together with the identity (`oid`) of the object holding it.  Two
  live Python objects are the same object exactly when their ids are
  equal, and equal ids imply equal fields, so structural equality of
  `PyAct` models Python `==` on actions.
* Python `list.remove` raises `ValueError` when the element is absent
  and otherwise removes its first occurrence.  The board operations are
  given as total functions (`List.erase` drops the first occurrence),
  and the raising branches are characterised separately by the
  `..._raises` predicates; `result_ex` packages `board.result` with its
  error behaviour.
* `copy.deepcopy` in `board.result` clones every sub-object; the only
  identity-sensitive data it touches are the history entries, which
  therefore receive fresh object ids (`re_id`).
-/

namespace NMM

inductive Pos where
  | a1 | a4 | a7 | b2 | b4 | b6 | c3 | c4 | c5
  | d1 | d2 | d3 | d5 | d6 | d7 | e3 | e4 | e5
  | f2 | f4 | f6 | g1 | g4 | g7
deriving DecidableEq, Repr, Fintype

/-- The column character of a coordinate (`location[0]` in the source). -/
def Pos.col : Pos → Char
  | .a1 => 'a' | .a4 => 'a' | .a7 => 'a'
  | .b2 => 'b' | .b4 => 'b' | .b6 => 'b'
  | .c3 => 'c' | .c4 => 'c' | .c5 => 'c'
  | .d1 => 'd' | .d2 => 'd' | .d3 => 'd'
  | .d5 => 'd' | .d6 => 'd' | .d7 => 'd'
  | .e3 => 'e' | .e4 => 'e' | .e5 => 'e'
  | .f2 => 'f' | .f4 => 'f' | .f6 => 'f'
  | .g1 => 'g' | .g4 => 'g' | .g7 => 'g'

/-- The row number of a coordinate (`location[1]` in the source). -/
def Pos.row : Pos → Nat
  | .a1 => 1 | .a4 => 4 | .a7 => 7
  | .b2 => 2 | .b4 => 4 | .b6 => 6
  | .c3 => 3 | .c4 => 4 | .c5 => 5
  | .d1 => 1 | .d2 => 2 | .d3 => 3
  | .d5 => 5 | .d6 => 6 | .d7 => 7
  | .e3 => 3 | .e4 => 4 | .e5 => 5
  | .f2 => 2 | .f4 => 4 | .f6 => 6
  | .g1 => 1 | .g4 => 4 | .g7 => 7

/-- Adjacency lists exactly as appended in `space.__init__`, in source order. -/
def adjacents : Pos → List Pos
  | .a1 => [.a4, .d1]
  | .a4 => [.a7, .a1, .b4]
  | .a7 => [.a4, .d7]
  | .b2 => [.b4, .d2]
  | .b4 => [.b6, .c4, .b2, .a4]
  | .b6 => [.b4, .d6]
  | .c3 => [.d3, .c4]
  | .c4 => [.c5, .c3, .b4]
  | .c5 => [.c4, .d5]
  | .d1 => [.a1, .d2, .g1]
  | .d2 => [.d3, .f2, .b2, .d1]
  | .d3 => [.e3, .d2, .c3]
  | .d5 => [.d6, .e5, .c5]
  | .d6 => [.d7, .f6, .d5, .b6]
  | .d7 => [.a7, .g7, .d6]
  | .e3 => [.d3, .e4]
  | .e4 => [.e5, .f4, .e3]
  | .e5 => [.d5, .e4]
  | .f2 => [.d2, .f4]
  | .f4 => [.f6, .g4, .f2, .e4]
  | .f6 => [.d6, .f4]
  | .g1 => [.d1, .g4]
  | .g4 => [.g7, .g1, .f4]
  | .g7 => [.d7, .g4]

/-- The 24 spaces in the insertion order of the `board.spaces` dictionary
(Python dictionaries iterate in insertion order, which fixes the
enumeration order of `for s in self.spaces`). -/
def allPos : List Pos :=
  [.a1, .a4, .a7, .b2, .b4, .b6, .c3, .c4, .c5,
   .d1, .d2, .d3, .d5, .d6, .d7, .e3, .e4, .e5,
   .f2, .f4, .f6, .g1, .g4, .g7]

/-- The fields of a Python `action` object: mover color, optional source
coordinate (`None` encodes a placement), destination coordinate, and the
optional coordinate of the opponent piece removed after a mill. -/
structure Action where
  color : Char
  old_coord : Option Pos
  new_coord : Pos
  mill_removal_target : Option Pos
deriving DecidableEq, Repr

/-- An `action` object: its field values together with its object
identity.  The `action` class defines no `__eq__`, so Python `==`
between two action objects is `is`, i.e. equality of ids; id allocation
is injective over live objects, so equal ids also mean equal fields and
structural equality of `PyAct` models the comparison used by
`is_repetitive_draw`. -/
structure PyAct where
  act : Action
  oid : Nat
deriving DecidableEq, Repr

set_option synthInstance.maxHeartbeats 1000000 in
/-- The state of a `board` object.  `content` is the `content` character
of each space ('O' open, 'W' white, 'B' black); the remaining fields
are the like-named Python attributes. -/
structure Board where
  white_pieces : List Pos
  black_pieces : List Pos
  repetition_draw : Bool
  previous_actions : List PyAct
  turn : Nat
  utility : Int
  content : Pos → Char
deriving DecidableEq

/-- `board.MAX_PREVIOUS_ACTIONS`. -/
def MAX_PREVIOUS_ACTIONS : Nat := 16

/-- The empty starting board built by `board.__init__`. -/
def init_board : Board :=
  { white_pieces := []
    black_pieces := []
    repetition_draw := false
    previous_actions := []
    turn := 1
    utility := 0
    content := fun _ => 'O' }

/-- `board.place(color, space)`: writes `color` into the space, appends
the coordinate to that color's piece list and advances the turn.  (The
Python method also returns `is_mill(color, space)`; `board.result`
discards that value, so it is not modelled here.) -/
def board_place (b : Board) (color : Char) (sp : Pos) : Board :=
  { b with
    content := fun p => if p = sp then color else b.content p
    white_pieces := if color = 'W' then b.white_pieces ++ [sp] else b.white_pieces
    black_pieces := if color = 'W' then b.black_pieces else b.black_pieces ++ [sp]
    turn := b.turn + 1 }

/-- `board.move(color, space1, space2)`: writes `color` into `space2`,
then opens `space1` (so when the two coincide the space ends open, as in
the source's assignment order), removes the first occurrence of
`space1` from the mover's list and appends `space2`, advancing the
turn.  The `tmp.remove(space1)` raising branch is `move_raises`. -/
def board_move (b : Board) (color : Char) (s1 s2 : Pos) : Board :=
  { b with
    content := fun p => if p = s1 then 'O' else if p = s2 then color else b.content p
    white_pieces :=
      if color = 'W' then (b.white_pieces.erase s1) ++ [s2] else b.white_pieces
    black_pieces :=
      if color = 'W' then b.black_pieces else (b.black_pieces.erase s1) ++ [s2]
    turn := b.turn + 1 }

/-- The condition under which `board.move` raises `ValueError`:
`tmp.remove(space1)` with `space1` absent from the mover's list. -/
def move_raises (b : Board) (color : Char) (s1 : Pos) : Bool :=
  if color = 'W' then !(b.white_pieces.contains s1) else !(b.black_pieces.contains s1)

/-- `board.remove(space)`: branches on the current content of the space
('W' edits the white list, anything else the black list) and then opens
the space.  The raising branch is `remove_raises`. -/
def board_remove (b : Board) (sp : Pos) : Board :=
  { b with
    white_pieces :=
      if b.content sp = 'W' then b.white_pieces.erase sp else b.white_pieces
    black_pieces :=
      if b.content sp = 'W' then b.black_pieces else b.black_pieces.erase sp
    content := fun p => if p = sp then 'O' else b.content p }

/-- The condition under which `board.remove` raises `ValueError`: the
list chosen by the content test does not contain the space. -/
def remove_raises (b : Board) (sp : Pos) : Bool :=
  if b.content sp = 'W' then !(b.white_pieces.contains sp)
  else !(b.black_pieces.contains sp)

/-- `board.add_action(action)`: append, dropping the oldest entry once
the history holds `MAX_PREVIOUS_ACTIONS` actions. -/
def add_action (b : Board) (x : PyAct) : Board :=
  if b.previous_actions.length < MAX_PREVIOUS_ACTIONS then
    { b with previous_actions := b.previous_actions ++ [x] }
  else
    { b with previous_actions := (b.previous_actions ++ [x]).drop 1 }

/-- `board.is_mill(color, space)`.  The Python early returns inside the
nested loops are existence checks over the same lists, so they are
rendered with `List.any`; `s is not comp` compares distinct `space`
objects, which hold distinct coordinates, hence `!=` on `Pos`. -/
def is_mill (b : Board) (color : Char) (sp : Pos) : Bool :=
  let friendly_adj := (adjacents sp).filter (fun s => b.content s == color)
  let middle :=
    if friendly_adj.length > 1 then
      friendly_adj.any (fun s => friendly_adj.any (fun comp =>
        s != comp && (Pos.col s == Pos.col comp || Pos.row s == Pos.row comp)))
    else false
  let long := friendly_adj.any (fun s =>
    ((adjacents s).filter (fun x => b.content x == color && x != sp)).any (fun x =>
      Pos.col x == Pos.col sp || Pos.row x == Pos.row sp))
  middle || long

/-- `board.is_repetitive_draw()`.  The final Python comparison
`len(intersection) == len(self.previous_actions)/2` uses true division,
so it holds exactly when twice the intersection length equals the
history length.  Entries are compared with Python `==`, i.e. object
identity, i.e. `PyAct` equality. -/
def is_repetitive_draw (b : Board) : Bool :=
  if b.previous_actions.length < MAX_PREVIOUS_ACTIONS then false
  else
    let half := b.previous_actions.length / 2
    let front := b.previous_actions.take half
    let back := b.previous_actions.drop half
    let intersection := (front.zip back).filter (fun xy => xy.1 == xy.2)
    2 * intersection.length == b.previous_actions.length

/-- The history after `copy.deepcopy`: the same field values held by
fresh objects, so every entry receives a fresh id (`base`, `base + 1`,
...). -/
def re_id (base : Nat) : List PyAct → List PyAct
  | [] => []
  | x :: t => ⟨x.act, base⟩ :: re_id (base + 1) t

/-- `copy.deepcopy(self)` as used in `board.result`: all field values
are preserved; the history entries become fresh objects. -/
def deep_copy (base : Nat) (b : Board) : Board :=
  { b with previous_actions := re_id base b.previous_actions }

/-- The intermediate board of `board.result` after the move/placement
dispatch on `action.old_coord` (lines 475-479), before any removal. -/
def result_mid (b : Board) (a : Action) : Board :=
  match a.old_coord with
  | some s1 => board_move b a.color s1 a.new_coord
  | none => board_place b a.color a.new_coord

/-- The successor state built by `board.result(action, calc_util,
max_color)`.  `aid` is the id of the action object being applied and
`base` the first fresh id handed out by the deepcopy.  Note that the
`calc_util` branch of the source acts on `self`, never on `new_board`,
so the successor does not depend on `calc_util` or `max_color` at all;
see `result_self_after`. -/
def result_board (b : Board) (a : Action) (aid : Nat) (base : Nat) : Board :=
  let bc := deep_copy base b
  let b1 := result_mid bc a
  let b2 := match a.mill_removal_target with
    | some t => board_remove b1 t
    | none => b1
  let b3 := add_action b2 ⟨a, aid⟩
  { b3 with repetition_draw := is_repetitive_draw b3 }

/-- `board.will_mill(color, move)`: evaluates `is_mill` at the move's
destination on the hypothetical successor.  The probe actions built by
`generate_moves` carry no capture and a source taken from the mover's
own list, so the probe `result` call never raises; the successor's
history ids are irrelevant to `is_mill`, so fixed ids are used. -/
def will_mill (b : Board) (color : Char) (mv : Action) : Bool :=
  is_mill (result_board b mv 0 1) color mv.new_coord

/-- The mover color determined from turn parity at the top of
`generate_moves` (and recomputed identically in `calculate_utility`). -/
def current_color (b : Board) : Char :=
  if b.turn % 2 == 0 then 'B' else 'W'

/-- The mover's piece list (`my_pieces` in `generate_moves`). -/
def my_pieces (b : Board) : List Pos :=
  if current_color b = 'W' then b.white_pieces else b.black_pieces

/-- The opponent's piece list (`opp_pieces` in `generate_moves`). -/
def opp_pieces (b : Board) : List Pos :=
  if current_color b = 'W' then b.black_pieces else b.white_pieces

/-- The full action list built by `board.generate_moves` when
`test_existence` is false: placements while `turn < 11`, adjacent moves
while the mover holds more than 3 pieces, flying moves with exactly 3,
and nothing otherwise.  Every candidate that mills is split into one
action per entry of the opponent's piece list. -/
def gen_all (b : Board) : List Action :=
  let c := current_color b
  let my := my_pieces b
  let opp := opp_pieces b
  if b.turn < 11 then
    (allPos.filter (fun s => b.content s == 'O')).flatMap (fun sp =>
      if will_mill b c ⟨c, none, sp, none⟩ then
        opp.map (fun t => (⟨c, none, sp, some t⟩ : Action))
      else [⟨c, none, sp, none⟩])
  else if my.length > 3 then
    my.flatMap (fun piece =>
      ((adjacents piece).filter (fun s => b.content s == 'O')).flatMap (fun sp =>
        if will_mill b c ⟨c, some piece, sp, none⟩ then
          opp.map (fun t => (⟨c, some piece, sp, some t⟩ : Action))
        else [⟨c, some piece, sp, none⟩]))
  else if my.length == 3 then
    my.flatMap (fun piece =>
      (allPos.filter (fun s => b.content s == 'O')).flatMap (fun sp =>
        if will_mill b c ⟨c, some piece, sp, none⟩ then
          opp.map (fun t => (⟨c, some piece, sp, some t⟩ : Action))
        else [⟨c, some piece, sp, none⟩]))
  else []

/-- `board.generate_moves(test_existence)`.  With `test_existence` the
source returns as soon as the first action has been appended; since the
construction order is fixed, that is the one-element prefix of the full
list. -/
def generate_moves (b : Board) (test_existence : Bool) : List Action :=
  if test_existence then (gen_all b).take 1 else gen_all b

/-- The value computed and returned by
`board.calculate_utility(max_color)` (which also stores it in
`self.utility`; callers that keep the mutated receiver pair this with
an explicit utility update).  `max_color` is `none` when the Python
caller passes `None`; `'X' == None` is false in Python, hence the
`Option` comparisons. -/
def calc_utility_val (b : Board) (max_color : Option Char) : Int :=
  let current := current_color b
  let my := if max_color = some 'W' then b.white_pieces else b.black_pieces
  let opp := if max_color = some 'W' then b.black_pieces else b.white_pieces
  let actions := generate_moves b true
  let no_moves_term : Int :=
    if actions.length = 0 then
      (if some current = max_color then -10000 else 10000)
    else 0
  let two_piece_term : Int :=
    if my.length = 2 ∧ b.turn > 10 then -20000
    else if opp.length = 2 ∧ b.turn > 10 then 20000
    else 0
  let mill_term : Int :=
    if b.previous_actions.length > 1 then
      match b.previous_actions.getLast? with
      | some x =>
        if x.act.mill_removal_target.isSome then
          (if some x.act.color = max_color then 300 else -300)
        else 0
      | none => 0
    else 0
  let material_difference : Int := (my.length : Int) - (opp.length : Int)
  let tmp := no_moves_term + two_piece_term + mill_term + material_difference * 200
  if b.repetition_draw then 0 else tmp

/-- The receiver of `board.result` after the call: when `calc_util` is
set, line 489 runs `self.calculate_utility(max_color)`, which stores
the pre-move state's evaluation into `self.utility`; otherwise the
receiver is untouched. -/
def result_self_after (b : Board) (calc_util : Bool) (max_color : Option Char) : Board :=
  if calc_util then { b with utility := calc_utility_val b max_color } else b

/-- Both boards involved in a completed `board.result(action,
calc_util, max_color)` call: the returned successor and the (possibly
mutated) receiver. -/
def result_pair (b : Board) (a : Action) (aid : Nat) (calc_util : Bool)
    (max_color : Option Char) (base : Nat) : Board × Board :=
  (result_board b a aid base, result_self_after b calc_util max_color)

/-- The condition under which `board.result` raises `ValueError`: the
move dispatch raises on the pre-move lists, or the removal raises on
the post-move board (the deepcopy changes neither lists nor contents,
so the raw fields of `b` are used). -/
def result_raises (b : Board) (a : Action) : Bool :=
  (match a.old_coord with
   | some s1 => move_raises b a.color s1
   | none => false) ||
  (match a.mill_removal_target with
   | some t => remove_raises (result_mid b a) t
   | none => false)

/-- `board.result` with its error behaviour: `ValueError` propagates to
the caller before `self` is ever mutated (the `calc_util` branch is
line 488-489, after every raising operation), otherwise the successor
and the updated receiver of `result_pair`. -/
def result_ex (b : Board) (a : Action) (aid : Nat) (calc_util : Bool)
    (max_color : Option Char) (base : Nat) : Except String (Board × Board) :=
  if result_raises b a then Except.error "ValueError"
  else Except.ok (result_pair b a aid calc_util max_color base)

/-- `board.is_terminal()`. -/
def is_terminal (b : Board) : Bool :=
  if b.white_pieces.length = 2 ∨ b.black_pieces.length = 2 then true
  else if (generate_moves b true).length > 0 then false
  else true

/-
The AI search.  `AI.AB_max_value`/`AI.AB_min_value` recurse on the
depth; their `for move in possible_moves` loops, which may return early
on a pruning cut, become the `AB_max_loop`/`AB_min_loop` helpers over
the remaining move list.  Each loop iteration calls
`board.result(move, calc_util, self.color)`, which both builds the
successor and, when `calc_util` is set, overwrites the receiver's
cached utility with the pre-move state's evaluation — so the loops
thread the mutated receiver (`result_self_after`) into the next
iteration.  The action object passed to `result` is freshly built by
`generate_moves` and the deepcopied history entries receive fresh ids,
so id `0` for the applied action and base `1` for the copies reproduce
the pairwise-distinct identities of a real allocation.
-/

mutual

/-- `AI.AB_max_value(board, depth, alpha, beta)` for an AI of color `c`. -/
def AB_max_value (c : Char) (b : Board) (depth : Nat) (alpha beta : Int) : Int :=
  if is_terminal b then calc_utility_val b (some c)
  else if depth = 0 then b.utility
  else AB_max_loop c (generate_moves b false) b (depth == 1) (depth - 1) alpha beta
termination_by (depth, 0)

/-- The move loop of `AI.AB_max_value`: `d` is the child depth
`depth - 1` and `cu` the `calc_util` flag `depth == 1`. -/
def AB_max_loop (c : Char) (moves : List Action) (b : Board) (cu : Bool)
    (d : Nat) (alpha beta : Int) : Int :=
  match moves with
  | [] => alpha
  | m :: rest =>
    let u := AB_min_value c (result_board b m 0 1) d alpha beta
    let b2 := result_self_after b cu (some c)
    let alpha2 := if u > alpha then u else alpha
    if beta ≤ alpha2 then alpha2 else AB_max_loop c rest b2 cu d alpha2 beta
termination_by (d, moves.length + 1)

/-- `AI.AB_min_value(board, depth, alpha, beta)` for an AI of color `c`. -/
def AB_min_value (c : Char) (b : Board) (depth : Nat) (alpha beta : Int) : Int :=
  if is_terminal b then calc_utility_val b (some c)
  else if depth = 0 then b.utility
  else AB_min_loop c (generate_moves b false) b (depth == 1) (depth - 1) alpha beta
termination_by (depth, 0)

/-- The move loop of `AI.AB_min_value`. -/
def AB_min_loop (c : Char) (moves : List Action) (b : Board) (cu : Bool)
    (d : Nat) (alpha beta : Int) : Int :=
  match moves with
  | [] => beta
  | m :: rest =>
    let u := AB_max_value c (result_board b m 0 1) d alpha beta
    let b2 := result_self_after b cu (some c)
    let beta2 := if u < beta then u else beta
    if beta2 ≤ alpha then beta2 else AB_min_loop c rest b2 cu d alpha beta2
termination_by (d, moves.length + 1)

end

/-- The root move loop of `AI.AB_minimax`: no pruning cut, strict
improvement updates both the alpha bound and the stored best action
(`action(move)` copies the fields), and the receiver mutation of each
`result` call is threaded exactly as in the value loops. -/
def AB_root_loop (c : Char) (moves : List Action) (b : Board) (cu : Bool)
    (d : Nat) (alpha : Int) (beta : Int) (best : Action) : Action :=
  match moves with
  | [] => best
  | m :: rest =>
    let u := AB_min_value c (result_board b m 0 1) d alpha beta
    let b2 := result_self_after b cu (some c)
    if u > alpha then AB_root_loop c rest b2 cu d u beta m
    else AB_root_loop c rest b2 cu d alpha beta best

/-- `AI.AB_minimax(board, depth)` for an AI of color `c`: `none` models
the `IndexError` of `possible_moves[0]` on an empty move list. -/
def AB_minimax (c : Char) (b : Board) (depth : Nat) : Option Action :=
  let possible_moves := generate_moves b false
  match possible_moves with
  | [] => none
  | m0 :: _ =>
    some (AB_root_loop c possible_moves b (depth == 1) (depth - 1)
      (-100000) 100000 m0)

/-- The root board after one `AB_minimax` pass at depth `d`: on the
`d == 1` pass each loop iteration's `result` call stores
`calculate_utility` of the root into the root (idempotently, since the
evaluation does not read the cached utility), so the board mutates
exactly when that pass runs at least one iteration. -/
def ID_pass_board (c : Char) (b : Board) (d : Nat) : Board :=
  if d = 1 ∧ gen_all b ≠ [] then result_self_after b true (some c) else b

/-- `AI.ID_AB_minimax(board)` with `MAX_DEPTH = maxd` for an AI of
color `c`: passes at depths 1, 2, ..., `maxd` each overwrite `result`,
sharing the root board object across passes; the answer of the last
pass is returned.  `none` models the unbound `result` of a zero
`MAX_DEPTH` as well as a propagated `IndexError`. -/
def ID_AB_minimax (c : Char) (b : Board) (maxd : Nat) : Option Action :=
  ((List.range maxd).foldl
    (fun acc i => (AB_minimax c acc.2 (i + 1), ID_pass_board c acc.2 (i + 1)))
    ((none : Option Action), b)).1

/-- The reflective board symmetry named by the specification: columns
`a` and `g`, `b` and `f`, `c` and `e` swap; column `d` and all rows are
fixed. -/
def mirrorPos : Pos → Pos
  | .a1 => .g1 | .a4 => .g4 | .a7 => .g7
  | .b2 => .f2 | .b4 => .f4 | .b6 => .f6
  | .c3 => .e3 | .c4 => .e4 | .c5 => .e5
  | .d1 => .d1 | .d2 => .d2 | .d3 => .d3
  | .d5 => .d5 | .d6 => .d6 | .d7 => .d7
  | .e3 => .c3 | .e4 => .c4 | .e5 => .c5
  | .f2 => .b2 | .f4 => .b4 | .f6 => .b6
  | .g1 => .a1 | .g4 => .a4 | .g7 => .a7

/-- The mirrored board: every occupied position is reflected, i.e. the
content of a space is read off its mirror image, and the piece lists
are reflected pointwise. -/
def mirror_board (b : Board) : Board :=
  { b with
    content := fun p => b.content (mirrorPos p)
    white_pieces := b.white_pieces.map mirrorPos
    black_pieces := b.black_pieces.map mirrorPos }

/-- The consistency invariant exactly as the claim states it: the white
list is the set of 'W' spaces, the black list the set of 'B' spaces,
and no position is on both lists. -/
def consistent (b : Board) : Prop :=
  (∀ p : Pos, p ∈ b.white_pieces ↔ b.content p = 'W') ∧
  (∀ p : Pos, p ∈ b.black_pieces ↔ b.content p = 'B') ∧
  (∀ p : Pos, ¬(p ∈ b.white_pieces ∧ p ∈ b.black_pieces))

/-- The same board with the capture field of the most recent history
entry cleared (a statement helper for isolating the mill reward of the
evaluator). -/
def strip_last_capture (b : Board) : Board :=
  { b with previous_actions :=
      match b.previous_actions.getLast? with
      | some x =>
        b.previous_actions.dropLast ++
          [⟨⟨x.act.color, x.act.old_coord, x.act.new_coord, none⟩, x.oid⟩]
      | none => b.previous_actions }

/-
Helper lemmas about the board operations.
-/

@[simp] lemma add_action_white (b : Board) (x : PyAct) :
    (add_action b x).white_pieces = b.white_pieces := by
  unfold add_action; split <;> rfl

@[simp] lemma add_action_black (b : Board) (x : PyAct) :
    (add_action b x).black_pieces = b.black_pieces := by
  unfold add_action; split <;> rfl

@[simp] lemma add_action_turn (b : Board) (x : PyAct) :
    (add_action b x).turn = b.turn := by
  unfold add_action; split <;> rfl

@[simp] lemma add_action_utility (b : Board) (x : PyAct) :
    (add_action b x).utility = b.utility := by
  unfold add_action; split <;> rfl

@[simp] lemma add_action_content (b : Board) (x : PyAct) :
    (add_action b x).content = b.content := by
  unfold add_action; split <;> rfl

@[simp] lemma add_action_rep (b : Board) (x : PyAct) :
    (add_action b x).repetition_draw = b.repetition_draw := by
  unfold add_action; split <;> rfl

lemma add_action_prev (b : Board) (x : PyAct) :
    (add_action b x).previous_actions =
      if b.previous_actions.length < MAX_PREVIOUS_ACTIONS then
        b.previous_actions ++ [x]
      else (b.previous_actions ++ [x]).drop 1 := by
  unfold add_action; split <;> rfl

@[simp] lemma re_id_length (base : Nat) (l : List PyAct) :
    (re_id base l).length = l.length := by
  induction l generalizing base with
  | nil => rfl
  | cons h t ih => simp [re_id, ih]

lemma re_id_map_act (base : Nat) (l : List PyAct) :
    (re_id base l).map PyAct.act = l.map PyAct.act := by
  induction l generalizing base with
  | nil => rfl
  | cons h t ih => simp [re_id, ih]

lemma re_id_getElem (base : Nat) (l : List PyAct) (i : Nat) :
    (re_id base l)[i]? = l[i]?.map (fun x => (⟨x.act, base + i⟩ : PyAct)) := by
  induction l generalizing base i with
  | nil => simp [re_id]
  | cons h t ih =>
    cases i with
    | zero => simp [re_id]
    | succ j =>
      simp only [re_id, List.getElem?_cons_succ, ih (base + 1) j]
      cases t[j]? <;> simp [Nat.add_assoc, Nat.add_comm 1 j]

lemma result_mid_prev (b : Board) (a : Action) :
    (result_mid b a).previous_actions = b.previous_actions := by
  unfold result_mid
  cases a.old_coord <;> rfl

lemma result_board_prev (b : Board) (a : Action) (aid base : Nat) :
    (result_board b a aid base).previous_actions =
      if b.previous_actions.length < MAX_PREVIOUS_ACTIONS then
        re_id base b.previous_actions ++ [(⟨a, aid⟩ : PyAct)]
      else (re_id base b.previous_actions ++ [(⟨a, aid⟩ : PyAct)]).drop 1 := by
  unfold result_board
  cases hm : a.mill_removal_target <;>
    simp [add_action_prev, board_remove, result_mid_prev, deep_copy]

/-- A full history whose first entry differs from the entry one half
further on is never a repetition. -/
lemma is_repetitive_draw_eq_false (b : Board) (x y : PyAct)
    (h16 : MAX_PREVIOUS_ACTIONS ≤ b.previous_actions.length)
    (hx : b.previous_actions[0]? = some x)
    (hy : b.previous_actions[b.previous_actions.length / 2]? = some y)
    (hne : x ≠ y) :
    is_repetitive_draw b = false := by
  unfold is_repetitive_draw
  rw [if_neg (by omega)]
  dsimp only
  rw [beq_eq_false_iff_ne]
  intro heq
  have h16' : 16 ≤ b.previous_actions.length := h16
  set l := b.previous_actions with hl
  set n := l.length with hn
  have hzlen : ((l.take (n / 2)).zip (l.drop (n / 2))).length = n / 2 := by
    simp only [List.length_zip, List.length_take, List.length_drop]
    omega
  have hfl : (((l.take (n / 2)).zip (l.drop (n / 2))).filter
      (fun xy => xy.1 == xy.2)).length ≤ n / 2 :=
    le_trans (List.length_filter_le _ _) (le_of_eq hzlen)
  have hfull : (((l.take (n / 2)).zip (l.drop (n / 2))).filter
      (fun xy => xy.1 == xy.2)).length =
      ((l.take (n / 2)).zip (l.drop (n / 2))).length := by
    rw [hzlen]; omega
  have hall := List.filter_length_eq_length.mp hfull
  have hpair : ((l.take (n / 2)).zip (l.drop (n / 2)))[0]? = some (x, y) := by
    rw [List.getElem?_zip_eq_some]
    constructor
    · rw [List.getElem?_take]
      simpa [show 0 < n / 2 by omega] using hx
    · rw [List.getElem?_drop]
      simpa using hy
  have hmem := List.getElem?_mem hpair
  have := hall _ hmem
  simp only [beq_iff_eq] at this
  exact hne this

lemma is_rep_depends_only_prev (b b' : Board)
    (h : b.previous_actions = b'.previous_actions) :
    is_repetitive_draw b = is_repetitive_draw b' := by
  unfold is_repetitive_draw
  rw [h]

/-- Any history of the shape left behind by `board.result` — freshly
re-identified copies followed by the applied action — fails the
repetition test: its first entry and the entry half a capful later are
distinct copies. -/
lemma is_rep_false_shape (b' : Board) (l : List PyAct) (a : Action) (aid base : Nat)
    (h : b'.previous_actions =
      if l.length < MAX_PREVIOUS_ACTIONS then re_id base l ++ [(⟨a, aid⟩ : PyAct)]
      else (re_id base l ++ [(⟨a, aid⟩ : PyAct)]).drop 1) :
    is_repetitive_draw b' = false := by
  by_cases hc : l.length < MAX_PREVIOUS_ACTIONS
  · rw [if_pos hc] at h
    have hlen : b'.previous_actions.length = l.length + 1 := by simp [h]
    by_cases h2 : l.length + 1 < MAX_PREVIOUS_ACTIONS
    · unfold is_repetitive_draw
      rw [if_pos (by omega)]
    · have h15 : l.length = 15 := by
        unfold MAX_PREVIOUS_ACTIONS at hc h2
        omega
      have hhalf : b'.previous_actions.length / 2 = 8 := by rw [hlen, h15]
      have hl0 : 0 < l.length := by omega
      have hl8 : 8 < l.length := by omega
      have e0 : b'.previous_actions[0]? = some ⟨l[0].act, base + 0⟩ := by
        rw [h, List.getElem?_append, if_pos (by simp [h15]), re_id_getElem base l 0,
          List.getElem?_eq_getElem hl0, Option.map_some']
      have e8 : b'.previous_actions[b'.previous_actions.length / 2]? =
          some ⟨l[8].act, base + 8⟩ := by
        rw [hhalf, h, List.getElem?_append, if_pos (by simp [h15]), re_id_getElem base l 8,
          List.getElem?_eq_getElem hl8, Option.map_some']
      refine is_repetitive_draw_eq_false b' _ _ (by omega) e0 e8 ?_
      intro heq
      have := congrArg PyAct.oid heq
      simp at this
  · rw [if_neg hc] at h
    have hn : MAX_PREVIOUS_ACTIONS ≤ l.length := by omega
    have h16 : 16 ≤ l.length := hn
    have hlen : b'.previous_actions.length = l.length := by
      simp [h]
    have hl1 : 1 < l.length := by omega
    have hlh : 1 + l.length / 2 < l.length := by omega
    have e0 : b'.previous_actions[0]? = some ⟨l[1].act, base + 1⟩ := by
      rw [h, List.getElem?_drop, List.getElem?_append, if_pos (by simp; omega),
        re_id_getElem base l 1, List.getElem?_eq_getElem hl1, Option.map_some']
    have ehalf : b'.previous_actions[b'.previous_actions.length / 2]? =
        some ⟨l[1 + l.length / 2].act, base + (1 + l.length / 2)⟩ := by
      rw [hlen, h, List.getElem?_drop, List.getElem?_append, if_pos (by simp; omega),
        re_id_getElem base l (1 + l.length / 2), List.getElem?_eq_getElem hlh,
        Option.map_some']
    refine is_repetitive_draw_eq_false b' _ _ (by omega) e0 ehalf ?_
    intro heq
    have := congrArg PyAct.oid heq
    simp at this
    omega

/-- The successor built by `board.result` never carries the repetition
flag: `deepcopy` gives every history entry a fresh identity and Python
`==` on actions is identity, so the halves of the history can never
match pairwise. -/
lemma result_board_repetition_draw (b : Board) (a : Action) (aid base : Nat) :
    (result_board b a aid base).repetition_draw = false := by
  have hb3 : (result_board b a aid base).repetition_draw =
      is_repetitive_draw (add_action
        (match a.mill_removal_target with
         | some t => board_remove (result_mid (deep_copy base b) a) t
         | none => result_mid (deep_copy base b) a) ⟨a, aid⟩) := rfl
  rw [hb3, is_rep_depends_only_prev _ (result_board b a aid base)
    (by rw [result_board_prev b a aid base]
        cases hm : a.mill_removal_target <;>
          simp [add_action_prev, board_remove, result_mid_prev, deep_copy])]
  exact is_rep_false_shape (result_board b a aid base) b.previous_actions a aid base
    (result_board_prev b a aid base)

/-
Concrete states used as counterexamples, failing inputs and witnesses.
-/

/-- White pieces on a1 and a4, black to move (turn 2). -/
def bWW : Board :=
  { white_pieces := [.a1, .a4]
    black_pieces := []
    repetition_draw := false
    previous_actions := []
    turn := 2
    utility := 0
    content := fun p => if p = .a1 then 'W' else if p = .a4 then 'W' else 'O' }

/-- Black places a piece on the open space b2. -/
def aBplace : Action := ⟨'B', none, .b2, none⟩

/-- The position of `bWW` but with White to move on turn 1: the mover
holds exactly 2 pieces during the placement phase. -/
def bC6 : Board := { bWW with turn := 1 }

/-- The position of `bWW` with White to move on turn 11: the mover
holds exactly 2 pieces after the placement phase. -/
def bC11 : Board := { bWW with turn := 11 }

/-- A placement of White on a1, used to fill a history. -/
def actW : Action := ⟨'W', none, .a1, none⟩

/-- Sixteen action objects with identical fields but (necessarily)
distinct identities: the histories real play produces. -/
def hist16 : List PyAct := (List.range 16).map (fun i => ⟨actW, i⟩)

/-- A board whose full history consists of two field-wise identical
halves held by sixteen distinct objects. -/
def b16 : Board := { init_board with previous_actions := hist16 }

/-- White piece on a1, black to move, history holding exactly one
action — a capturing action by White. -/
def s0 : Board :=
  { white_pieces := [.a1]
    black_pieces := []
    repetition_draw := false
    previous_actions := [⟨⟨'W', none, .a1, some .b2⟩, 0⟩]
    turn := 2
    utility := 0
    content := fun p => if p = .a1 then 'W' else 'O' }

/-- A placement whose destination a1 is already occupied in `s0`. -/
def aOcc : Action := ⟨'W', none, .a1, none⟩

/-
C1.  `board.result` and mutation of its receiver.
-/

/-- C1, counterexample: with `calc_util` true, `board.result` does
mutate its receiver — line 489 runs `self.calculate_utility(max_color)`
on the pre-move state, overwriting `self.utility` (here from 0 to 400),
so not every field of the receiver reads identically after the call. -/
theorem claim_C1_counterexample :
    ((result_pair bWW aBplace 0 true (some 'W') 1).2).utility ≠ bWW.utility := by
  decide

/-- C1, amended: `board.result` leaves its receiver completely
unchanged when `calc_util` is false; when `calc_util` is true the
receiver changes only in its cached utility, which is overwritten with
`calculate_utility(max_color)` of the receiver (pre-move) state.  The
successor is a function of the inputs: two calls on the same state and
action yield successors with identical occupancy, piece lists, turn,
utility, repetition flag and history fields (the history entries are
fresh objects on each call — `aid`/`base` — but hold equal `Action`
field values). -/
theorem claim_C1_amended (b : Board) (a : Action) (aid aid' : Nat) (mc : Option Char)
    (base base' : Nat) :
    (result_pair b a aid false mc base).2 = b ∧
    (result_pair b a aid true mc base).2 = { b with utility := calc_utility_val b mc } ∧
    (result_board b a aid base).white_pieces = (result_board b a aid' base').white_pieces ∧
    (result_board b a aid base).black_pieces = (result_board b a aid' base').black_pieces ∧
    (result_board b a aid base).turn = (result_board b a aid' base').turn ∧
    (result_board b a aid base).utility = (result_board b a aid' base').utility ∧
    (result_board b a aid base).content = (result_board b a aid' base').content ∧
    (result_board b a aid base).repetition_draw =
      (result_board b a aid' base').repetition_draw ∧
    (result_board b a aid base).previous_actions.map PyAct.act =
      (result_board b a aid' base').previous_actions.map PyAct.act := by
  obtain ⟨c, o, nc, mt⟩ := a
  refine ⟨rfl, rfl, ?_, ?_, ?_, ?_, ?_, ?_, ?_⟩
  · cases o <;> cases mt <;>
      simp [result_board, result_mid, deep_copy, board_place, board_move, board_remove]
  · cases o <;> cases mt <;>
      simp [result_board, result_mid, deep_copy, board_place, board_move, board_remove]
  · cases o <;> cases mt <;>
      simp [result_board, result_mid, deep_copy, board_place, board_move, board_remove]
  · cases o <;> cases mt <;>
      simp [result_board, result_mid, deep_copy, board_place, board_move, board_remove]
  · cases o <;> cases mt <;>
      simp [result_board, result_mid, deep_copy, board_place, board_move, board_remove]
  · rw [result_board_repetition_draw, result_board_repetition_draw]
  · rw [result_board_prev, result_board_prev]
    by_cases hl : b.previous_actions.length < MAX_PREVIOUS_ACTIONS <;>
      simp [hl, re_id_map_act]

/-
C2.  The cached utility of the successor state.
-/

/-- C2, code bug: `board.result` with `calc_util` true evaluates and
stores the utility on the pre-move receiver (`self`), not on the
returned successor, so the successor's cached utility keeps the stale
copied value.  At this failing input the successor of a legal black
placement keeps cached utility 0 while `calculate_utility('W')` of that
successor is 200, so the `depth == 0` base case of the search reads a
stale value — contradicting the claim (and the source's own intent that
the result call populates the utility of the final search layer). -/
theorem claim_C2_code_bug :
    aBplace ∈ gen_all bWW ∧
    (result_pair bWW aBplace 0 true (some 'W') 1).1.utility = 0 ∧
    calc_utility_val ((result_pair bWW aBplace 0 true (some 'W') 1).1) (some 'W') = 200 := by
  refine ⟨by decide, by decide, by decide⟩

/-
C4.  Repetition detection and action equality.
-/

/-- C4, code bug: the `action` class defines no `__eq__`, so the
element-wise comparison in `is_repetitive_draw` is object identity, not
structural equality.  A full history whose halves are field-wise
identical but held by sixteen distinct objects — the only kind of
history real play can build, since `deepcopy` re-allocates every entry
— is not reported as a repetition, and via `board.result` the
repetition flag is never set at all. -/
theorem claim_C4_code_bug :
    b16.previous_actions.length = MAX_PREVIOUS_ACTIONS ∧
    (b16.previous_actions.take 8).map PyAct.act =
      (b16.previous_actions.drop 8).map PyAct.act ∧
    is_repetitive_draw b16 = false ∧
    (∀ (b : Board) (a : Action) (aid base : Nat),
      (result_board b a aid base).repetition_draw = false) := by
  refine ⟨by decide, by decide, by decide, ?_⟩
  intro b a aid base
  exact result_board_repetition_draw b a aid base

/-
C6.  Move generation with two pieces.
-/

/-- C6, counterexample: with the mover holding exactly 2 pieces on a
board whose turn counter is still in the placement phase, placement
actions are generated — `generate_moves` checks only `turn < 11`, never
the piece count, in its first branch. -/
theorem claim_C6_counterexample :
    (my_pieces bC6).length = 2 ∧ bC6.turn < 11 ∧ generate_moves bC6 false ≠ [] := by
  refine ⟨by decide, by decide, by decide⟩

/-- C6, amended: once the placement phase is over (`turn ≥ 11`), a
mover with exactly 2 pieces gets no generated actions — the movement
branch requires more than 3 pieces and the flying branch exactly 3;
during the placement phase (`turn < 11`) placements are generated
regardless of the piece count. -/
theorem claim_C6_amended (b : Board) (te : Bool) (h1 : 11 ≤ b.turn)
    (h2 : (my_pieces b).length = 2) : generate_moves b te = [] := by
  have hg : gen_all b = [] := by
    unfold gen_all
    rw [if_neg (by omega), if_neg (by omega), if_neg (by simp [h2])]
  unfold generate_moves
  rw [hg]
  cases te <;> simp

/-- C6, amended, witness at `bC11`. -/
theorem claim_C6_amended_witness :
    11 ≤ bC11.turn ∧ (my_pieces bC11).length = 2 ∧ generate_moves bC11 false = [] :=
  ⟨by decide, by decide, claim_C6_amended bC11 false (by decide) (by decide)⟩

/-
C5.  The mill reward term of the evaluator.
-/

@[simp] lemma strip_white (b : Board) :
    (strip_last_capture b).white_pieces = b.white_pieces := rfl

@[simp] lemma strip_black (b : Board) :
    (strip_last_capture b).black_pieces = b.black_pieces := rfl

@[simp] lemma strip_turn (b : Board) : (strip_last_capture b).turn = b.turn := rfl

@[simp] lemma strip_rep (b : Board) :
    (strip_last_capture b).repetition_draw = b.repetition_draw := rfl

@[simp] lemma strip_current_color (b : Board) :
    current_color (strip_last_capture b) = current_color b := rfl

lemma strip_prev_length (b : Board) :
    (strip_last_capture b).previous_actions.length = b.previous_actions.length := by
  unfold strip_last_capture
  cases h : b.previous_actions.getLast? with
  | none => rfl
  | some x =>
    have hne : b.previous_actions ≠ [] := by
      intro hnil
      rw [hnil] at h
      simp at h
    have hpos : 0 < b.previous_actions.length := List.length_pos.mpr hne
    simp [List.length_dropLast]
    omega

lemma strip_getLast (b : Board) (x : PyAct)
    (h : b.previous_actions.getLast? = some x) :
    (strip_last_capture b).previous_actions.getLast? =
      some ⟨⟨x.act.color, x.act.old_coord, x.act.new_coord, none⟩, x.oid⟩ := by
  unfold strip_last_capture
  rw [h]
  simp [List.getLast?_concat]

/-- `is_mill` reads only the occupancy. -/
lemma is_mill_content_congr (b b' : Board) (c : Char) (sp : Pos)
    (h : b.content = b'.content) : is_mill b c sp = is_mill b' c sp := by
  unfold is_mill
  rw [h]

/-- `will_mill` (hence move generation) is independent of the history,
the repetition flag and the cached utility of the probed state. -/
lemma will_mill_prev_irrel (b : Board) (l : List PyAct) (r : Bool) (u : Int)
    (c : Char) (mv : Action) :
    will_mill { b with previous_actions := l, repetition_draw := r, utility := u } c mv =
      will_mill b c mv := by
  unfold will_mill
  refine is_mill_content_congr _ _ c mv.new_coord ?_
  obtain ⟨cc, o, nc, mt⟩ := mv
  cases o <;> cases mt <;>
    simp [result_board, result_mid, deep_copy, board_place, board_move, board_remove]

/-- Move generation is a function of occupancy, piece lists and turn
alone. -/
lemma gen_all_prev_irrel (b : Board) (l : List PyAct) (r : Bool) (u : Int) :
    gen_all { b with previous_actions := l, repetition_draw := r, utility := u } =
      gen_all b := by
  unfold gen_all my_pieces opp_pieces current_color
  dsimp only
  simp only [will_mill_prev_irrel]

lemma gen_all_strip (b : Board) : gen_all (strip_last_capture b) = gen_all b := by
  unfold strip_last_capture
  exact gen_all_prev_irrel b _ b.repetition_draw b.utility

lemma generate_moves_strip (b : Board) (te : Bool) :
    generate_moves (strip_last_capture b) te = generate_moves b te := by
  unfold generate_moves
  rw [gen_all_strip]

/-- C5, counterexample: with exactly one action in the history — a
capture by White — the evaluator awards no mill term at all: the source
guards the term with `len(previous_actions) > 1`, so a history of
length 1 never triggers it.  The utility equals that of the
capture-stripped history (200, the bare material term), not 200 + 300. -/
theorem claim_C5_counterexample :
    s0.previous_actions.length = 1 ∧
    s0.previous_actions.getLast? = some ⟨⟨'W', none, .a1, some .b2⟩, 0⟩ ∧
    calc_utility_val s0 (some 'W') = 200 ∧
    calc_utility_val (strip_last_capture s0) (some 'W') = 200 := by
  refine ⟨by decide, by decide, by decide, by decide⟩

/-- C5, amended: the ±300 mill reward is included exactly when the
history holds at least two actions and the most recent one captured
(and the state is not flagged as a repetition draw, which forces the
total to 0): relative to the same state with the last capture stripped
the utility differs by +300 when that action's color is the
perspective color and by −300 otherwise; with at most one action in the
history the capture makes no difference. -/
theorem claim_C5_amended (b : Board) (mc : Option Char) :
    (∀ x : PyAct, b.previous_actions.getLast? = some x →
      x.act.mill_removal_target.isSome = true →
      1 < b.previous_actions.length →
      b.repetition_draw = false →
      calc_utility_val b mc =
        calc_utility_val (strip_last_capture b) mc +
          (if some x.act.color = mc then 300 else -300)) ∧
    (b.previous_actions.length ≤ 1 →
      calc_utility_val b mc = calc_utility_val (strip_last_capture b) mc) := by
  constructor
  · intro x hx hcap hlen hrep
    unfold calc_utility_val
    dsimp only
    rw [generate_moves_strip, strip_prev_length, strip_getLast b x hx, hx,
      strip_white, strip_black, strip_turn, strip_rep, strip_current_color, hrep]
    rw [if_pos hlen, if_pos hlen]
    simp only [hcap, Option.isSome_none, Bool.false_eq_true, if_true, if_false]
    ring
  · intro hlen
    unfold calc_utility_val
    dsimp only
    rw [generate_moves_strip, strip_prev_length, strip_white, strip_black,
      strip_turn, strip_rep, strip_current_color]
    rw [if_neg (show ¬(1 < b.previous_actions.length) by omega),
      if_neg (show ¬(1 < b.previous_actions.length) by omega)]

/-- A history of two actions, the later a capture by White. -/
def s5 : Board :=
  { s0 with previous_actions := [⟨actW, 5⟩, ⟨⟨'W', none, .a1, some .b2⟩, 0⟩] }

/-- C5, amended, witness at `s5`. -/
theorem claim_C5_amended_witness :
    calc_utility_val s5 (some 'W') =
      calc_utility_val (strip_last_capture s5) (some 'W') +
        (if some 'W' = some 'W' then 300 else -300) :=
  (claim_C5_amended s5 (some 'W')).1 ⟨⟨'W', none, .a1, some .b2⟩, 0⟩
    (by decide) (by decide) (by decide) (by decide)

/-
C3.  Error behaviour of `board.result`.
-/

/-- The exact raising condition of `board.result`. -/
lemma result_raises_iff (b : Board) (a : Action) :
    result_raises b a = true ↔
      ((∃ s1, a.old_coord = some s1 ∧
          s1 ∉ (if a.color = 'W' then b.white_pieces else b.black_pieces)) ∨
       (∃ t, a.mill_removal_target = some t ∧
          (((result_mid b a).content t = 'W' ∧ t ∉ (result_mid b a).white_pieces) ∨
           ((result_mid b a).content t ≠ 'W' ∧ t ∉ (result_mid b a).black_pieces)))) := by
  unfold result_raises move_raises remove_raises
  cases ho : a.old_coord <;> cases hm : a.mill_removal_target <;>
    by_cases hc : a.color = 'W' <;>
    simp [hc, ho, hm] <;>
    split <;>
    simp_all

/-- C3, counterexample: applying a placement whose destination is
already occupied does not fail — `board.place` never inspects the
destination's occupancy and silently overwrites it — so the claimed
invalid-action error for an occupied destination does not exist. -/
theorem claim_C3_counterexample :
    s0.content aOcc.new_coord = 'W' ∧ aOcc.old_coord = none ∧
    aOcc.mill_removal_target = none ∧ result_raises s0 aOcc = false ∧
    result_ex s0 aOcc 0 false none 1 =
      Except.ok (result_pair s0 aOcc 0 false none 1) := by
  refine ⟨by decide, rfl, rfl, by decide, ?_⟩
  unfold result_ex
  simp [show result_raises s0 aOcc = false from by decide]

/-- C3, amended: `board.result` raises (a `ValueError`, surfaced to the
caller) exactly when the action's source is present but absent from the
mover color's piece list, or when a capture target is present whose
entry is missing from the list selected by its post-move content
(which, on consistent states, means the capture targets an empty
position).  Destination occupancy is never checked, and a capture of a
piece of the mover's own color is not rejected.  The receiver is
unmutated on the error path: the raise precedes the `calc_util` branch,
so the error case returns no receiver update at all. -/
theorem claim_C3_amended (b : Board) (a : Action) (aid : Nat) (cu : Bool)
    (mc : Option Char) (base : Nat) :
    result_ex b a aid cu mc base = Except.error "ValueError" ↔
      ((∃ s1, a.old_coord = some s1 ∧
          s1 ∉ (if a.color = 'W' then b.white_pieces else b.black_pieces)) ∨
       (∃ t, a.mill_removal_target = some t ∧
          (((result_mid b a).content t = 'W' ∧ t ∉ (result_mid b a).white_pieces) ∨
           ((result_mid b a).content t ≠ 'W' ∧ t ∉ (result_mid b a).black_pieces)))) := by
  rw [← result_raises_iff b a]
  unfold result_ex
  split
  · simp_all
  · simp_all

/-
C7.  Mirror symmetry of mill detection.
-/

lemma mirror_mirror (p : Pos) : mirrorPos (mirrorPos p) = p := by
  cases p <;> rfl

lemma mirror_inj {p q : Pos} (h : mirrorPos p = mirrorPos q) : p = q := by
  have h2 := congrArg mirrorPos h
  rwa [mirror_mirror, mirror_mirror] at h2

/-- The mirror is a graph automorphism of the board topology. -/
lemma mirror_adj {p q : Pos} (h : q ∈ adjacents p) :
    mirrorPos q ∈ adjacents (mirrorPos p) := by
  revert p q
  decide

lemma mirror_col_iff (p q : Pos) :
    Pos.col (mirrorPos p) = Pos.col (mirrorPos q) ↔ Pos.col p = Pos.col q := by
  revert p q
  decide

lemma mirror_row (p : Pos) : Pos.row (mirrorPos p) = Pos.row p := by
  cases p <;> rfl

/-- A pairwise test that fails on the diagonal is false over every list
of at most one element. -/
lemma pair_any_false {α : Type} (l : List α) (f : α → α → Bool)
    (hf : ∀ a, f a a = false) (hlen : ¬ 1 < l.length) :
    (l.any fun s => l.any fun t => f s t) = false := by
  match l with
  | [] => rfl
  | [a] => simp [hf]
  | a :: b :: rest => simp at hlen

lemma one_lt_length_of_two_mem {α : Type} {l : List α} {s t : α}
    (hs : s ∈ l) (ht : t ∈ l) (hne : s ≠ t) : 1 < l.length := by
  match l with
  | [] => cases hs
  | [a] =>
    simp at hs ht
    exact absurd (hs.trans ht.symm) hne
  | a :: b :: rest => simp [List.length]

/-- The `len(friendly_adj) > 1` guard in `is_mill` is redundant: the
pairwise middle-mill test is false anyway on lists of at most one
element. -/
lemma is_mill_noguard (b : Board) (c : Char) (sp : Pos) :
    is_mill b c sp =
      (((adjacents sp).filter (fun s => b.content s == c)).any (fun s =>
        ((adjacents sp).filter (fun s => b.content s == c)).any (fun comp =>
          s != comp && (Pos.col s == Pos.col comp || Pos.row s == Pos.row comp))) ||
       ((adjacents sp).filter (fun s => b.content s == c)).any (fun s =>
         ((adjacents s).filter (fun x => b.content x == c && x != sp)).any (fun x =>
           Pos.col x == Pos.col sp || Pos.row x == Pos.row sp))) := by
  unfold is_mill
  dsimp only
  by_cases hlen : ((adjacents sp).filter (fun s => b.content s == c)).length > 1
  · rw [if_pos hlen]
  · rw [if_neg hlen, pair_any_false _ _ (fun a => by simp) hlen]

/-- `is_mill` as an existence statement over the adjacency lists. -/
lemma is_mill_iff (b : Board) (c : Char) (sp : Pos) :
    is_mill b c sp = true ↔
      ((∃ s ∈ adjacents sp, b.content s = c ∧
          ∃ t ∈ adjacents sp, b.content t = c ∧ s ≠ t ∧
            (Pos.col s = Pos.col t ∨ Pos.row s = Pos.row t)) ∨
       (∃ s ∈ adjacents sp, b.content s = c ∧
          ∃ x ∈ adjacents s, b.content x = c ∧ x ≠ sp ∧
            (Pos.col x = Pos.col sp ∨ Pos.row x = Pos.row sp))) := by
  rw [is_mill_noguard]
  simp only [Bool.or_eq_true, List.any_eq_true, List.mem_filter, Bool.and_eq_true,
    beq_iff_eq, bne_iff_ne, decide_eq_true_eq]
  constructor
  · rintro (⟨s, ⟨hs, hcs⟩, t, ⟨ht, hct⟩, hne, hcr⟩ | ⟨s, ⟨hs, hcs⟩, x, ⟨hx, hcx, hxs⟩, hcr⟩)
    · exact Or.inl ⟨s, hs, hcs, t, ht, hct, hne, hcr⟩
    · exact Or.inr ⟨s, hs, hcs, x, hx, hcx, hxs, hcr⟩
  · rintro (⟨s, hs, hcs, t, ht, hct, hne, hcr⟩ | ⟨s, hs, hcs, x, hx, hcx, hxs, hcr⟩)
    · exact Or.inl ⟨s, ⟨hs, hcs⟩, t, ⟨ht, hct⟩, hne, hcr⟩
    · exact Or.inr ⟨s, ⟨hs, hcs⟩, x, ⟨hx, hcx, hxs⟩, hcr⟩

/-- One direction of the mirror transfer. -/
lemma is_mill_mirror_mp (b : Board) (c : Char) (sp : Pos)
    (h : is_mill b c sp = true) :
    is_mill (mirror_board b) c (mirrorPos sp) = true := by
  rw [is_mill_iff] at h ⊢
  rcases h with ⟨s, hs, hcs, t, ht, hct, hne, hcr⟩ | ⟨s, hs, hcs, x, hx, hcx, hxs, hcr⟩
  · left
    refine ⟨mirrorPos s, mirror_adj hs, ?_, mirrorPos t, mirror_adj ht, ?_, ?_, ?_⟩
    · show b.content (mirrorPos (mirrorPos s)) = c
      rwa [mirror_mirror]
    · show b.content (mirrorPos (mirrorPos t)) = c
      rwa [mirror_mirror]
    · intro he
      exact hne (mirror_inj he)
    · rcases hcr with h1 | h1
      · exact Or.inl ((mirror_col_iff s t).mpr h1)
      · exact Or.inr (by rwa [mirror_row, mirror_row])
  · right
    refine ⟨mirrorPos s, mirror_adj hs, ?_, mirrorPos x, mirror_adj hx, ?_, ?_, ?_⟩
    · show b.content (mirrorPos (mirrorPos s)) = c
      rwa [mirror_mirror]
    · show b.content (mirrorPos (mirrorPos x)) = c
      rwa [mirror_mirror]
    · intro he
      exact hxs (mirror_inj he)
    · rcases hcr with h1 | h1
      · exact Or.inl ((mirror_col_iff x sp).mpr h1)
      · exact Or.inr (by rwa [mirror_row, mirror_row])

/-- C7, confirmed: mill detection commutes with the board's reflective
symmetry — for every state, color and position, `is_mill` at a position
equals `is_mill` at the mirrored position on the mirrored state. -/
theorem claim_C7 (b : Board) (c : Char) (p : Pos) :
    is_mill b c p = is_mill (mirror_board b) c (mirrorPos p) := by
  cases h : is_mill b c p
  · cases h2 : is_mill (mirror_board b) c (mirrorPos p)
    · rfl
    · exfalso
      have h3 := is_mill_mirror_mp (mirror_board b) c (mirrorPos p) h2
      rw [mirror_mirror] at h3
      have hbb : is_mill (mirror_board (mirror_board b)) c p = is_mill b c p := by
        refine is_mill_content_congr _ _ c p ?_
        funext q
        show b.content (mirrorPos (mirrorPos q)) = b.content q
        rw [mirror_mirror]
      rw [hbb, h] at h3
      cases h3
  · exact (is_mill_mirror_mp b c p h).symm

/-
C9.  Determinism of the iterative-deepening search.
-/

/-- The root loop only ever returns the incumbent best action or one of
the loop's moves. -/
lemma AB_root_loop_mem (c : Char) (moves : List Action) (b : Board) (cu : Bool)
    (d : Nat) (alpha beta : Int) (best : Action) (S : List Action)
    (hbest : best ∈ S) (hmoves : ∀ m ∈ moves, m ∈ S) :
    AB_root_loop c moves b cu d alpha beta best ∈ S := by
  induction moves generalizing b alpha best with
  | nil => exact hbest
  | cons m rest ih =>
    simp only [AB_root_loop]
    split
    · exact ih _ _ _ (hmoves m (by simp)) (fun x hx => hmoves x (by simp [hx]))
    · exact ih _ _ _ hbest (fun x hx => hmoves x (by simp [hx]))

/-- `AB_minimax` only returns actions from the move list of the state
it is given. -/
lemma AB_minimax_mem (c : Char) (b : Board) (depth : Nat) (a : Action)
    (h : AB_minimax c b depth = some a) : a ∈ generate_moves b false := by
  unfold AB_minimax at h
  cases hg : generate_moves b false with
  | nil =>
    rw [hg] at h
    cases h
  | cons m0 rest =>
    rw [hg] at h
    dsimp only at h
    have := AB_root_loop_mem c (m0 :: rest) b (depth == 1) (depth - 1)
      (-100000) 100000 m0 (m0 :: rest) (by simp) (fun x hx => hx)
    rw [Option.some_inj.mp h] at this
    exact this

/-- The root board threaded through the iterative-deepening passes
differs from the original only in its cached utility, so it generates
the same moves. -/
lemma ID_thread_gen (c : Char) (b : Board) (n : Nat) :
    gen_all (((List.range n).foldl
      (fun acc i => (AB_minimax c acc.2 (i + 1), ID_pass_board c acc.2 (i + 1)))
      ((none : Option Action), b)).2) = gen_all b := by
  induction n with
  | zero => rfl
  | succ k ih =>
    rw [List.range_succ, List.foldl_append]
    dsimp only [List.foldl]
    unfold ID_pass_board
    split
    · unfold result_self_after
      rw [if_pos rfl]
      rw [gen_all_prev_irrel _ _ _ _]
      exact ih
    · exact ih

/-- The answer of `ID_AB_minimax` is the deepest pass's `AB_minimax`
run on the threaded root board, whose move list is that of the original
root. -/
lemma ID_fold (c : Char) (b : Board) (maxd : Nat) (h : 1 ≤ maxd) :
    ∃ b', ID_AB_minimax c b maxd = AB_minimax c b' maxd ∧ gen_all b' = gen_all b := by
  cases maxd with
  | zero => omega
  | succ n =>
    refine ⟨(((List.range n).foldl
      (fun acc i => (AB_minimax c acc.2 (i + 1), ID_pass_board c acc.2 (i + 1)))
      ((none : Option Action), b)).2), ?_, ID_thread_gen c b n⟩
    unfold ID_AB_minimax
    rw [List.range_succ, List.foldl_append]
    dsimp only [List.foldl]

/-- C9, confirmed: the search is a pure function of (state, depth,
color) — two runs on equal inputs return the same Action — and the
Action returned (when one is returned at all) is an element of the
root's generated move list, whose enumeration order is the fixed
insertion order of the spaces dictionary; ties keep the incumbent
because the root loop only replaces the best action on a strict
improvement. -/
theorem claim_C9 (c : Char) (b1 b2 : Board) (maxd : Nat) (hb : b1 = b2)
    (hd : 1 ≤ maxd) :
    ID_AB_minimax c b1 maxd = ID_AB_minimax c b2 maxd ∧
    (∀ a, ID_AB_minimax c b1 maxd = some a → a ∈ generate_moves b1 false) := by
  constructor
  · rw [hb]
  · intro a ha
    obtain ⟨b', hID, hgen⟩ := ID_fold c b1 maxd hd
    rw [hID] at ha
    have hmem := AB_minimax_mem c b' maxd a ha
    unfold generate_moves at hmem ⊢
    rw [if_neg (by simp)] at hmem ⊢
    rwa [hgen] at hmem

/-- C9, witness. -/
theorem claim_C9_witness :
    ID_AB_minimax 'B' bWW 1 = ID_AB_minimax 'B' bWW 1 ∧
    (∀ a, ID_AB_minimax 'B' bWW 1 = some a → a ∈ generate_moves bWW false) :=
  claim_C9 'B' bWW bWW 1 rfl (by decide)

/-
C10.  Capture splitting of mill-forming candidates.
-/

lemma allPos_mem (p : Pos) : p ∈ allPos := by
  cases p <;> decide

lemma allPos_nodup : allPos.Nodup := by decide

/-- Over a duplicate-free list, a block function that is empty away
from `x` contributes only its block at `x`. -/
lemma flatMap_single {α β : Type} (L : List α) (g : α → List β) (x : α)
    (hN : L.Nodup) (hx : x ∈ L) (hz : ∀ y ∈ L, y ≠ x → g y = []) :
    L.flatMap g = g x := by
  induction L with
  | nil => cases hx
  | cons y ys ih =>
    have hcons := List.nodup_cons.mp hN
    rcases List.mem_cons.mp hx with rfl | hxs
    · have h2 : ys.flatMap g = [] := by
        apply List.flatMap_eq_nil_iff.mpr
        intro z hz2
        exact hz z (by simp [hz2]) (fun he => hcons.1 (he ▸ hz2))
      show g x ++ ys.flatMap g = g x
      rw [h2, List.append_nil]
    · have hyx : y ≠ x := by
        rintro rfl
        exact hcons.1 hxs
      have h1 : g y = [] := hz y (by simp) hyx
      show g y ++ ys.flatMap g = g x
      rw [h1, List.nil_append]
      exact ih hcons.2 hxs (fun z hz2 => hz z (by simp [hz2]))

/-- C10, confirmed, stated for the two generation branches the claim is
read from.  Placement phase: for an open destination that would form a
mill, the generated actions with that destination are exactly one per
entry of the opponent's piece list — in particular none at all when the
opponent has no pieces, the move being omitted entirely rather than
emitted without a capture.  Flying phase: the same holds per
(source piece, destination) candidate. -/
theorem claim_C10 (b : Board) (sp : Pos) (piece : Pos) :
    (b.turn < 11 → b.content sp = 'O' →
      will_mill b (current_color b) ⟨current_color b, none, sp, none⟩ = true →
      (gen_all b).filter (fun a => a.new_coord == sp) =
        (opp_pieces b).map (fun t => (⟨current_color b, none, sp, some t⟩ : Action))) ∧
    (¬ b.turn < 11 → (my_pieces b).length = 3 → (my_pieces b).Nodup →
      piece ∈ my_pieces b → b.content sp = 'O' →
      will_mill b (current_color b) ⟨current_color b, some piece, sp, none⟩ = true →
      (gen_all b).filter (fun a => a.old_coord == some piece && a.new_coord == sp) =
        (opp_pieces b).map (fun t => (⟨current_color b, some piece, sp, some t⟩ : Action))) := by
  constructor
  · intro hturn hopen hwm
    unfold gen_all
    dsimp only
    rw [if_pos hturn, List.filter_flatMap]
    have hstep : (allPos.filter (fun s => b.content s == 'O')).flatMap
        (fun sp2 => ((if will_mill b (current_color b)
            ⟨current_color b, none, sp2, none⟩ = true then
          (opp_pieces b).map (fun t => (⟨current_color b, none, sp2, some t⟩ : Action))
        else [⟨current_color b, none, sp2, none⟩]).filter (fun a => a.new_coord == sp))) =
        ((if will_mill b (current_color b) ⟨current_color b, none, sp, none⟩ = true then
          (opp_pieces b).map (fun t => (⟨current_color b, none, sp, some t⟩ : Action))
        else [⟨current_color b, none, sp, none⟩]).filter (fun a => a.new_coord == sp)) := by
      refine flatMap_single _ _ sp (allPos_nodup.filter _) ?_ ?_
      · exact List.mem_filter.mpr ⟨allPos_mem sp, by simp [hopen]⟩
      · intro y _ hy
        apply List.filter_eq_nil_iff.mpr
        intro a ha
        split at ha
        · obtain ⟨t, _, rfl⟩ := List.mem_map.mp ha
          simpa using hy
        · rw [List.mem_singleton.mp ha]
          simpa using hy
    rw [hstep, if_pos hwm, List.filter_eq_self.mpr (by
      intro a ha
      obtain ⟨t, _, rfl⟩ := List.mem_map.mp ha
      simp)]
  · intro hturn h3 hnd hpm hopen hwm
    unfold gen_all
    dsimp only
    rw [if_neg hturn, if_neg (by omega), if_pos (by simp [h3]), List.filter_flatMap]
    have houter : (my_pieces b).flatMap
        (fun p2 => (((allPos.filter (fun s => b.content s == 'O')).flatMap (fun sp2 =>
          if will_mill b (current_color b) ⟨current_color b, some p2, sp2, none⟩ = true then
            (opp_pieces b).map (fun t => (⟨current_color b, some p2, sp2, some t⟩ : Action))
          else [⟨current_color b, some p2, sp2, none⟩])).filter
            (fun a => a.old_coord == some piece && a.new_coord == sp))) =
        ((allPos.filter (fun s => b.content s == 'O')).flatMap (fun sp2 =>
          if will_mill b (current_color b) ⟨current_color b, some piece, sp2, none⟩ = true then
            (opp_pieces b).map (fun t => (⟨current_color b, some piece, sp2, some t⟩ : Action))
          else [⟨current_color b, some piece, sp2, none⟩])).filter
            (fun a => a.old_coord == some piece && a.new_coord == sp) := by
      refine flatMap_single _ _ piece hnd hpm ?_
      intro y _ hy
      apply List.filter_eq_nil_iff.mpr
      intro a ha
      obtain ⟨sp2, _, ha2⟩ := List.mem_flatMap.mp ha
      split at ha2
      · obtain ⟨t, _, rfl⟩ := List.mem_map.mp ha2
        simpa using fun he _ => hy he
      · rw [List.mem_singleton.mp ha2]
        simpa using fun he _ => hy he
    rw [houter, List.filter_flatMap]
    have hinner : (allPos.filter (fun s => b.content s == 'O')).flatMap
        (fun sp2 => ((if will_mill b (current_color b)
            ⟨current_color b, some piece, sp2, none⟩ = true then
          (opp_pieces b).map (fun t => (⟨current_color b, some piece, sp2, some t⟩ : Action))
        else [⟨current_color b, some piece, sp2, none⟩]).filter
          (fun a => a.old_coord == some piece && a.new_coord == sp))) =
        ((if will_mill b (current_color b) ⟨current_color b, some piece, sp, none⟩ = true then
          (opp_pieces b).map (fun t => (⟨current_color b, some piece, sp, some t⟩ : Action))
        else [⟨current_color b, some piece, sp, none⟩]).filter
          (fun a => a.old_coord == some piece && a.new_coord == sp)) := by
      refine flatMap_single _ _ sp (allPos_nodup.filter _) ?_ ?_
      · exact List.mem_filter.mpr ⟨allPos_mem sp, by simp [hopen]⟩
      · intro y _ hy
        apply List.filter_eq_nil_iff.mpr
        intro a ha
        split at ha
        · obtain ⟨t, _, rfl⟩ := List.mem_map.mp ha
          simpa using hy
        · rw [List.mem_singleton.mp ha]
          simpa using hy
    rw [hinner, if_pos hwm, List.filter_eq_self.mpr (by
      intro a ha
      obtain ⟨t, _, rfl⟩ := List.mem_map.mp ha
      simp)]

/-- White on a1 and a4, a black piece on b2, White to place (turn 5):
placing on a7 mills. -/
def bCap : Board :=
  { white_pieces := [.a1, .a4]
    black_pieces := [.b2]
    repetition_draw := false
    previous_actions := []
    turn := 5
    utility := 0
    content := fun p =>
      if p = .a1 then 'W' else if p = .a4 then 'W' else if p = .b2 then 'B' else 'O' }

/-- White flying with a1, a4 and b2, a black piece on g7, turn 11:
flying b2 to a7 mills. -/
def bFly : Board :=
  { white_pieces := [.a1, .a4, .b2]
    black_pieces := [.g7]
    repetition_draw := false
    previous_actions := []
    turn := 11
    utility := 0
    content := fun p =>
      if p = .a1 then 'W' else if p = .a4 then 'W' else if p = .b2 then 'W'
      else if p = .g7 then 'B' else 'O' }

/-
C8.  Preservation of the consistency invariant.
-/

/-- White on a1 and a4 milling at a7; the black piece list holds b2
twice, which the claim's set-level invariant does not exclude. -/
def bDup : Board :=
  { white_pieces := [.a1, .a4]
    black_pieces := [.b2, .b2]
    repetition_draw := false
    previous_actions := []
    turn := 5
    utility := 0
    content := fun p =>
      if p = .a1 then 'W' else if p = .a4 then 'W' else if p = .b2 then 'B' else 'O' }

/-- The generated mill placement capturing b2 on `bDup`. -/
def aC8 : Action := ⟨'W', none, .a7, some .b2⟩

instance (b : Board) : Decidable (consistent b) := by
  unfold consistent
  infer_instance

/-- C8, counterexample: the claim's invariant (set-level equality of
lists and occupancy plus disjointness) admits a duplicated piece list;
applying a generated capture then erases only the first duplicate while
opening the space, leaving b2 on the black list with empty content —
the successor violates the invariant. -/
theorem claim_C8_counterexample :
    consistent bDup ∧ aC8 ∈ gen_all bDup ∧
    ¬ consistent (result_board bDup aC8 0 1) := by
  refine ⟨by decide, by decide, by decide⟩

lemma nodup_concat {α : Type} (l : List α) (a : α) (h : l.Nodup) (ha : a ∉ l) :
    (l ++ [a]).Nodup := by
  rw [List.nodup_append]
  refine ⟨h, by simp, ?_⟩
  intro x hx
  simp
  intro hxa
  subst hxa
  exact ha hx

lemma place_consistent (b : Board) (c : Char) (sp : Pos)
    (hcons : consistent b) (hw : b.white_pieces.Nodup) (hbk : b.black_pieces.Nodup)
    (hc : c = 'W' ∨ c = 'B') (hsp : b.content sp = 'O') :
    consistent (board_place b c sp) ∧ (board_place b c sp).white_pieces.Nodup ∧
      (board_place b c sp).black_pieces.Nodup := by
  obtain ⟨h1, h2, h3⟩ := hcons
  have hspw : sp ∉ b.white_pieces := by
    intro hmem
    have h4 := (h1 sp).mp hmem
    rw [hsp] at h4
    cases h4
  have hspb : sp ∉ b.black_pieces := by
    intro hmem
    have h4 := (h2 sp).mp hmem
    rw [hsp] at h4
    cases h4
  rcases hc with rfl | rfl
  · simp only [board_place, if_pos rfl]
    refine ⟨⟨?_, ?_, ?_⟩, ?_, ?_⟩
    · intro p
      by_cases hps : p = sp <;> simp [hps, h1 p, hspw]
    · intro p
      by_cases hps : p = sp <;> simp [hps, h2 p, hspb]
    · intro p
      by_cases hps : p = sp <;> simp [hps, hspb]
      intro hpw
      exact fun hpb => h3 p ⟨hpw, hpb⟩
    · exact nodup_concat _ _ hw hspw
    · exact hbk
  · have hcb : ¬ (('B' : Char) = 'W') := by decide
    simp only [board_place, if_neg hcb]
    refine ⟨⟨?_, ?_, ?_⟩, ?_, ?_⟩
    · intro p
      by_cases hps : p = sp <;> simp [hps, h1 p, hspw]
    · intro p
      by_cases hps : p = sp <;> simp [hps, h2 p, hspb]
    · intro p
      by_cases hps : p = sp <;> simp [hps, hspw]
      intro hpw
      exact fun hpb => h3 p ⟨hpw, hpb⟩
    · exact hw
    · exact nodup_concat _ _ hbk hspb

lemma move_consistent (b : Board) (c : Char) (s1 s2 : Pos)
    (hcons : consistent b) (hw : b.white_pieces.Nodup) (hbk : b.black_pieces.Nodup)
    (hc : c = 'W' ∨ c = 'B') (hs1 : b.content s1 = c) (hs2 : b.content s2 = 'O') :
    consistent (board_move b c s1 s2) ∧ (board_move b c s1 s2).white_pieces.Nodup ∧
      (board_move b c s1 s2).black_pieces.Nodup := by
  obtain ⟨h1, h2, h3⟩ := hcons
  rcases hc with rfl | rfl
  · have hne : s1 ≠ s2 := by
      intro h
      rw [h, hs2] at hs1
      cases hs1
    have hs1w : s1 ∈ b.white_pieces := (h1 s1).mpr hs1
    have hs1b : s1 ∉ b.black_pieces := by
      intro hm
      have h4 := (h2 s1).mp hm
      rw [hs1] at h4
      cases h4
    have hs2w : s2 ∉ b.white_pieces := by
      intro hm
      have h4 := (h1 s2).mp hm
      rw [hs2] at h4
      cases h4
    have hs2b : s2 ∉ b.black_pieces := by
      intro hm
      have h4 := (h2 s2).mp hm
      rw [hs2] at h4
      cases h4
    simp only [board_move, if_pos rfl]
    refine ⟨⟨?_, ?_, ?_⟩, ?_, ?_⟩
    · intro p
      by_cases hp1 : p = s1
      · subst hp1
        simp [List.Nodup.mem_erase_iff hw, hne]
      · by_cases hp2 : p = s2
        · subst hp2
          simp [hp1]
        · simp [List.Nodup.mem_erase_iff hw, hp1, hp2, h1 p]
    · intro p
      by_cases hp1 : p = s1
      · subst hp1
        simp [hs1b]
      · by_cases hp2 : p = s2
        · subst hp2
          simp [hs2b, hp1]
        · simp [hp1, hp2, h2 p]
    · intro p
      by_cases hp2 : p = s2
      · subst hp2
        simp [hs2b]
      · by_cases hp1 : p = s1
        · subst hp1
          simp [List.Nodup.mem_erase_iff hw, hne, hs1b]
        · simp [List.Nodup.mem_erase_iff hw, hp1, hp2]
          intro hpw hpb
          exact h3 p ⟨hpw, hpb⟩
    · refine nodup_concat _ _ (hw.erase s1) ?_
      intro hm
      exact hs2w (List.mem_of_mem_erase hm)
    · exact hbk
  · have hcb : ¬ (('B' : Char) = 'W') := by decide
    have hne : s1 ≠ s2 := by
      intro h
      rw [h, hs2] at hs1
      cases hs1
    have hs1b : s1 ∈ b.black_pieces := (h2 s1).mpr hs1
    have hs1w : s1 ∉ b.white_pieces := by
      intro hm
      have h4 := (h1 s1).mp hm
      rw [hs1] at h4
      cases h4
    have hs2w : s2 ∉ b.white_pieces := by
      intro hm
      have h4 := (h1 s2).mp hm
      rw [hs2] at h4
      cases h4
    have hs2b : s2 ∉ b.black_pieces := by
      intro hm
      have h4 := (h2 s2).mp hm
      rw [hs2] at h4
      cases h4
    simp only [board_move, if_neg hcb]
    refine ⟨⟨?_, ?_, ?_⟩, ?_, ?_⟩
    · intro p
      by_cases hp1 : p = s1
      · subst hp1
        simp [hs1w]
      · by_cases hp2 : p = s2
        · subst hp2
          simp [hs2w, hp1]
        · simp [hp1, hp2, h1 p]
    · intro p
      by_cases hp1 : p = s1
      · subst hp1
        simp [List.Nodup.mem_erase_iff hbk, hne]
      · by_cases hp2 : p = s2
        · subst hp2
          simp [hp1]
        · simp [List.Nodup.mem_erase_iff hbk, hp1, hp2, h2 p]
    · intro p
      by_cases hp2 : p = s2
      · subst hp2
        simp [hs2w]
      · by_cases hp1 : p = s1
        · subst hp1
          simp [List.Nodup.mem_erase_iff hbk, hne, hs1w]
        · simp [List.Nodup.mem_erase_iff hbk, hp1, hp2]
          intro hpw hpb
          exact h3 p ⟨hpw, hpb⟩
    · exact hw
    · refine nodup_concat _ _ (hbk.erase s1) ?_
      intro hm
      exact hs2b (List.mem_of_mem_erase hm)

lemma remove_consistent (b : Board) (t : Pos)
    (hcons : consistent b) (hw : b.white_pieces.Nodup) (hbk : b.black_pieces.Nodup)
    (ht : b.content t = 'W' ∨ b.content t = 'B') :
    consistent (board_remove b t) ∧ (board_remove b t).white_pieces.Nodup ∧
      (board_remove b t).black_pieces.Nodup := by
  obtain ⟨h1, h2, h3⟩ := hcons
  rcases ht with ht | ht
  · have htb : t ∉ b.black_pieces := by
      intro hm
      have h4 := (h2 t).mp hm
      rw [ht] at h4
      cases h4
    simp only [board_remove, if_pos ht]
    refine ⟨⟨?_, ?_, ?_⟩, ?_, ?_⟩
    · intro p
      by_cases hp : p = t
      · subst hp
        simp [List.Nodup.mem_erase_iff hw]
      · simp [List.Nodup.mem_erase_iff hw, hp, h1 p]
    · intro p
      by_cases hp : p = t
      · subst hp
        simp [htb]
      · simp [hp, h2 p]
    · intro p
      by_cases hp : p = t
      · subst hp
        simp [htb]
      · simp [List.Nodup.mem_erase_iff hw, hp]
        intro hpw hpb
        exact h3 p ⟨hpw, hpb⟩
    · exact hw.erase t
    · exact hbk
  · have hnw : ¬ b.content t = 'W' := by
      rw [ht]
      decide
    have htw : t ∉ b.white_pieces := by
      intro hm
      have h4 := (h1 t).mp hm
      rw [ht] at h4
      cases h4
    simp only [board_remove, if_neg hnw]
    refine ⟨⟨?_, ?_, ?_⟩, ?_, ?_⟩
    · intro p
      by_cases hp : p = t
      · subst hp
        simp [htw]
      · simp [hp, h1 p]
    · intro p
      by_cases hp : p = t
      · subst hp
        simp [List.Nodup.mem_erase_iff hbk]
      · simp [List.Nodup.mem_erase_iff hbk, hp, h2 p]
    · intro p
      by_cases hp : p = t
      · subst hp
        simp [htw]
      · simp [List.Nodup.mem_erase_iff hbk, hp]
        intro hpw hpb
        exact h3 p ⟨hpw, hpb⟩
    · exact hw
    · exact hbk.erase t

/-- What membership in the generated move list guarantees about an
action: mover color, an open destination, a source from the mover's
list, a capture target from the opponent's list. -/
lemma gen_mem (b : Board) (a : Action) (ha : a ∈ gen_all b) :
    a.color = current_color b ∧
    b.content a.new_coord = 'O' ∧
    (∀ s1, a.old_coord = some s1 → s1 ∈ my_pieces b) ∧
    (∀ t, a.mill_removal_target = some t → t ∈ opp_pieces b) := by
  unfold gen_all at ha
  dsimp only at ha
  split at ha
  · obtain ⟨sp, hsp, hblock⟩ := List.mem_flatMap.mp ha
    have hopen : b.content sp = 'O' := by
      simpa using (List.mem_filter.mp hsp).2
    split at hblock
    · obtain ⟨t, htm, rfl⟩ := List.mem_map.mp hblock
      refine ⟨rfl, hopen, ?_, ?_⟩
      · intro s1 h
        cases h
      · intro t2 h
        obtain rfl := Option.some_inj.mp h
        exact htm
    · rw [List.mem_singleton.mp hblock]
      refine ⟨rfl, hopen, ?_, ?_⟩
      · intro s1 h
        cases h
      · intro t h
        cases h
  · split at ha
    · obtain ⟨piece, hpiece, ha2⟩ := List.mem_flatMap.mp ha
      obtain ⟨sp, hsp, hblock⟩ := List.mem_flatMap.mp ha2
      have hopen : b.content sp = 'O' := by
        simpa using (List.mem_filter.mp hsp).2
      split at hblock
      · obtain ⟨t, htm, rfl⟩ := List.mem_map.mp hblock
        refine ⟨rfl, hopen, ?_, ?_⟩
        · intro s1 h
          obtain rfl := Option.some_inj.mp h
          exact hpiece
        · intro t2 h
          obtain rfl := Option.some_inj.mp h
          exact htm
      · rw [List.mem_singleton.mp hblock]
        refine ⟨rfl, hopen, ?_, fun t h => by cases h⟩
        intro s1 h
        obtain rfl := Option.some_inj.mp h
        exact hpiece
    · split at ha
      · obtain ⟨piece, hpiece, ha2⟩ := List.mem_flatMap.mp ha
        obtain ⟨sp, hsp, hblock⟩ := List.mem_flatMap.mp ha2
        have hopen : b.content sp = 'O' := by
          simpa using (List.mem_filter.mp hsp).2
        split at hblock
        · obtain ⟨t, htm, rfl⟩ := List.mem_map.mp hblock
          refine ⟨rfl, hopen, ?_, ?_⟩
          · intro s1 h
            obtain rfl := Option.some_inj.mp h
            exact hpiece
          · intro t2 h
            obtain rfl := Option.some_inj.mp h
            exact htm
        · rw [List.mem_singleton.mp hblock]
          refine ⟨rfl, hopen, ?_, fun t h => by cases h⟩
          intro s1 h
          obtain rfl := Option.some_inj.mp h
          exact hpiece
      · cases ha

lemma current_color_cases (b : Board) :
    current_color b = 'W' ∨ current_color b = 'B' := by
  unfold current_color
  split
  · exact Or.inr rfl
  · exact Or.inl rfl

lemma result_board_white_eq (b : Board) (a : Action) (aid base : Nat) :
    (result_board b a aid base).white_pieces =
      (match a.mill_removal_target with
       | some t => board_remove (result_mid b a) t
       | none => result_mid b a).white_pieces := by
  obtain ⟨c, o, nc, mt⟩ := a
  cases o <;> cases mt <;>
    simp [result_board, result_mid, deep_copy, board_place, board_move, board_remove]

lemma result_board_black_eq (b : Board) (a : Action) (aid base : Nat) :
    (result_board b a aid base).black_pieces =
      (match a.mill_removal_target with
       | some t => board_remove (result_mid b a) t
       | none => result_mid b a).black_pieces := by
  obtain ⟨c, o, nc, mt⟩ := a
  cases o <;> cases mt <;>
    simp [result_board, result_mid, deep_copy, board_place, board_move, board_remove]

lemma result_board_content_eq (b : Board) (a : Action) (aid base : Nat) :
    (result_board b a aid base).content =
      (match a.mill_removal_target with
       | some t => board_remove (result_mid b a) t
       | none => result_mid b a).content := by
  obtain ⟨c, o, nc, mt⟩ := a
  cases o <;> cases mt <;>
    simp [result_board, result_mid, deep_copy, board_place, board_move, board_remove]

lemma consistent_of_fields (b b' : Board)
    (hw : b.white_pieces = b'.white_pieces) (hb : b.black_pieces = b'.black_pieces)
    (hc : b.content = b'.content) (h : consistent b') : consistent b := by
  unfold consistent at h ⊢
  rw [hw, hb, hc]
  exact h

/-- C8, amended: the claim's invariant strengthened by freedom from
duplicates in the two piece lists is preserved by applying any
generated action.  (The counterexample forces the strengthening: the
set-level invariant alone admits duplicated lists, which a capture
breaks.) -/
theorem claim_C8_amended (b : Board) (a : Action) (aid base : Nat)
    (hcons : consistent b)
    (hw : b.white_pieces.Nodup) (hbk : b.black_pieces.Nodup)
    (ha : a ∈ gen_all b) :
    consistent (result_board b a aid base) ∧
    (result_board b a aid base).white_pieces.Nodup ∧
    (result_board b a aid base).black_pieces.Nodup := by
  obtain ⟨hacol, hopen, hold, hcap⟩ := gen_mem b a ha
  have hcc : a.color = 'W' ∨ a.color = 'B' := by
    rw [hacol]
    exact current_color_cases b
  have hmid : consistent (result_mid b a) ∧ (result_mid b a).white_pieces.Nodup ∧
      (result_mid b a).black_pieces.Nodup := by
    unfold result_mid
    cases ho : a.old_coord with
    | none => exact place_consistent b a.color a.new_coord hcons hw hbk hcc hopen
    | some s1 =>
      have hs1my := hold s1 ho
      have hs1c : b.content s1 = a.color := by
        rcases current_color_cases b with hcw | hcb
        · unfold my_pieces at hs1my
          rw [hcw] at hs1my
          simp at hs1my
          rw [hacol, hcw]
          exact (hcons.1 s1).mp hs1my
        · unfold my_pieces at hs1my
          rw [hcb] at hs1my
          simp at hs1my
          rw [hacol, hcb]
          exact (hcons.2.1 s1).mp hs1my
      exact move_consistent b a.color s1 a.new_coord hcons hw hbk hcc hs1c hopen
  have hstep : consistent (match a.mill_removal_target with
       | some t => board_remove (result_mid b a) t
       | none => result_mid b a) ∧
      (match a.mill_removal_target with
       | some t => board_remove (result_mid b a) t
       | none => result_mid b a).white_pieces.Nodup ∧
      (match a.mill_removal_target with
       | some t => board_remove (result_mid b a) t
       | none => result_mid b a).black_pieces.Nodup := by
    cases hm : a.mill_removal_target with
    | none => exact hmid
    | some t =>
      have htopp := hcap t hm
      have htc : b.content t = 'W' ∨ b.content t = 'B' := by
        rcases current_color_cases b with hcw | hcb
        · unfold opp_pieces at htopp
          rw [hcw] at htopp
          simp at htopp
          exact Or.inr ((hcons.2.1 t).mp htopp)
        · unfold opp_pieces at htopp
          rw [hcb] at htopp
          simp at htopp
          exact Or.inl ((hcons.1 t).mp htopp)
      have htnc : t ≠ a.new_coord := by
        intro h
        rw [h, hopen] at htc
        rcases htc with h4 | h4 <;> cases h4
      have hmidc : (result_mid b a).content t = b.content t := by
        unfold result_mid
        cases ho : a.old_coord with
        | none =>
          show (if t = a.new_coord then a.color else b.content t) = b.content t
          rw [if_neg htnc]
        | some s1 =>
          have hts1 : t ≠ s1 := by
            intro h
            have hs1my := hold s1 ho
            rcases current_color_cases b with hcw | hcb
            · unfold my_pieces at hs1my
              rw [hcw] at hs1my
              simp at hs1my
              have hsw : b.content s1 = 'W' := (hcons.1 s1).mp hs1my
              unfold opp_pieces at htopp
              rw [hcw] at htopp
              simp at htopp
              have htB : b.content t = 'B' := (hcons.2.1 t).mp htopp
              rw [h, hsw] at htB
              cases htB
            · unfold my_pieces at hs1my
              rw [hcb] at hs1my
              simp at hs1my
              have hsb : b.content s1 = 'B' := (hcons.2.1 s1).mp hs1my
              unfold opp_pieces at htopp
              rw [hcb] at htopp
              simp at htopp
              have htW : b.content t = 'W' := (hcons.1 t).mp htopp
              rw [h, hsb] at htW
              cases htW
          show (if t = s1 then 'O' else if t = a.new_coord then a.color else b.content t) =
            b.content t
          rw [if_neg hts1, if_neg htnc]
      exact remove_consistent (result_mid b a) t hmid.1 hmid.2.1 hmid.2.2
        (by rw [hmidc]; exact htc)
  refine ⟨?_, ?_, ?_⟩
  · refine consistent_of_fields _ _ (result_board_white_eq b a aid base)
      (result_board_black_eq b a aid base) (result_board_content_eq b a aid base) hstep.1
  · rw [result_board_white_eq b a aid base]
    exact hstep.2.1
  · rw [result_board_black_eq b a aid base]
    exact hstep.2.2

/-- C8, amended, witness: the capture placement on `bCap` preserves the
strengthened invariant. -/
theorem claim_C8_amended_witness :
    consistent (result_board bCap ⟨'W', none, .a7, some .b2⟩ 0 1) ∧
    (result_board bCap ⟨'W', none, .a7, some .b2⟩ 0 1).white_pieces.Nodup ∧
    (result_board bCap ⟨'W', none, .a7, some .b2⟩ 0 1).black_pieces.Nodup :=
  claim_C8_amended bCap ⟨'W', none, .a7, some .b2⟩ 0 1 (by decide) (by decide)
    (by decide) (by decide)

/-- C10, witness: one placement-phase and one flying-phase instance. -/
theorem claim_C10_witness :
    (gen_all bCap).filter (fun a => a.new_coord == Pos.a7) =
      [⟨'W', none, .a7, some .b2⟩] ∧
    (gen_all bFly).filter (fun a => a.old_coord == some Pos.b2 && a.new_coord == Pos.a7) =
      [⟨'W', some .b2, .a7, some .g7⟩] := by
  constructor
  · exact ((claim_C10 bCap Pos.a7 Pos.a7).1 (by decide) (by decide)
      (by decide)).trans (by decide)
  · exact ((claim_C10 bFly Pos.a7 Pos.b2).2 (by decide) (by decide) (by decide)
      (by decide) (by decide) (by decide)).trans (by decide)

end NMM
